import Mathlib

/-!
Verification of `scripts/visualize_growth.py` (panacus growth-table
visualizer).  The script's numeric behaviour is embedded with exact
arithmetic: Python integers become `ℤ`, the internal scaled value
`i / 10 ** (order * 3)` becomes a rational, and `int(np.log10(i))` for a
positive integer `i` is modelled by its exact value, the number of decimal
digits of `i` minus one (equivalently `Nat.log 10 i`).  Fallible code
returns `Except`/`Option`; an uncaught Python exception is an `.error`
value, and the unbounded `while` loop of `calibrate_yticks_text` is given
an explicit fuel parameter, `none` meaning the loop is still running after
`fuel` iterations.
-/

deriving instance DecidableEq for Except

namespace VG

/-! ### Decimal digits, rendered exactly as `'{:,.Pf}'.format` does -/

/-- Little-endian base-10 digits of `n`; structural recursion on `fuel`
(callers pass `fuel = n`, which always suffices) so that the kernel can
evaluate it. -/
def digitsRevF : ℕ → ℕ → List ℕ
  | 0, _ => []
  | f + 1, n => if n = 0 then [] else n % 10 :: digitsRevF f (n / 10)

/-- Little-endian base-10 digits of `n` (empty for `n = 0`). -/
def digitsRev (n : ℕ) : List ℕ := digitsRevF n n

/-- Value of a little-endian base-10 digit list. -/
def ofDigitsN : List ℕ → ℕ
  | [] => 0
  | d :: ds => d + 10 * ofDigitsN ds

/-- The character for one decimal digit. -/
def digitChar (d : ℕ) : Char := Char.ofNat (48 + d)

/-- Inverse of `digitChar` on decimal digits. -/
def charVal (c : Char) : ℕ := c.toNat - 48

/-- Big-endian decimal digit string of `n`, `"0"` for zero — the digits a
`printf`-style formatter emits for a non-negative integer. -/
def digitsStr (n : ℕ) : List Char :=
  if n = 0 then ['0'] else ((digitsRev n).map digitChar).reverse

/-- Read a big-endian digit string back as a number. -/
def unDigits (l : List Char) : ℕ := ofDigitsN (l.reverse.map charVal)

/-- Zero-pad a fractional digit block on the left to `p` digits. -/
def padFrac (p : ℕ) (ds : List Char) : List Char :=
  List.replicate (p - ds.length) '0' ++ ds

/-- Insert `','` after every three characters of a *reversed* digit
string, as the `','` flag of Python's format spec groups thousands.
Structural on `fuel` (callers pass the length). -/
def commaGroupRevF : ℕ → List Char → List Char
  | 0, l => l
  | f + 1, l =>
    if l.length ≤ 3 then l else l.take 3 ++ ',' :: commaGroupRevF f (l.drop 3)

/-- Group a big-endian digit string with thousands separators. -/
def commaGroup (ds : List Char) : List Char :=
  (commaGroupRevF ds.reverse.length ds.reverse).reverse

/-- Round the fraction `a / b` (with `b > 0`) to the nearest integer, ties
to even — the rounding `'{:,.Pf}'.format` applies to the value being
formatted, computed here on the exact quotient. -/
def roundHE (a b : ℤ) : ℤ :=
  let f := Int.fdiv a b
  let rem := a - f * b
  if 2 * rem < b then f
  else if b < 2 * rem then f + 1
  else if f % 2 = 0 then f else f + 1

/-- Render the non-negative integer `n` (the value scaled by `10 ^ p`) with
`p` decimal places and thousands grouping: digit string of `n / 10 ^ p`
with commas, then, when `p > 0`, a point and the zero-padded digits of
`n % 10 ^ p`. -/
def renderN (n p : ℕ) : List Char :=
  commaGroup (digitsStr (n / 10 ^ p)) ++
    (if p = 0 then [] else '.' :: padFrac p (digitsStr (n % 10 ^ p)))

/-- `'{:,.{prec}f}'.format(x)` for the non-negative exact value
`x = a / b`: round `x * 10 ^ p` half-to-even and render the result with
`p` decimal places. -/
def formatFixedL (a b : ℤ) (p : ℕ) : List Char :=
  renderN (roundHE (a * 10 ^ p) b).toNat p

/-- Remove thousands separators. -/
def stripCommas (l : List Char) : List Char := l.filter (fun c => !(c == ','))

/-- Left inverse of `renderN · p`: strip commas, split at the decimal
point, and recombine integer and fractional parts. -/
def unformatN (l : List Char) (p : ℕ) : ℕ :=
  let t := stripCommas l
  if p = 0 then unDigits t
  else
    unDigits (t.takeWhile (fun c => !(c == '.'))) * 10 ^ p +
      unDigits ((t.dropWhile (fun c => !(c == '.'))).drop 1)

/-! ### `humanize_number` -/

/-- The suffix table `human_r = ['', 'K', 'M', 'B', 'D']` of the source. -/
def humanR : List String := ["", "K", "M", "B", "D"]

/-- The ways `humanize_number` can raise: the `assert i >= 0` failing, or
`human_r[order]` indexing out of range. -/
inductive HumanizeError where
  | assertNeg
  | indexError
deriving DecidableEq, Repr

/-- `int(np.log10(i)) // 3` of the source for `i > 0`, with the log taken
exactly: one less than the number of decimal digits, divided by 3; the
source initialises `order = 0` and only reassigns it when `i > 0`. -/
def order (i : ℤ) : ℕ :=
  if i ≤ 0 then 0 else ((digitsRev i.toNat).length - 1) / 3

/-- `humanize_number` from the source: assert non-negativity, compute the
suffix order and the scaled value `x = i / 10 ** (order * 3)` (kept as the
exact fraction `i / 10 ^ (order i * 3)`), then format `x` with `precision`
decimals and append `human_r[order]`. -/
def humanize_number (i : ℤ) (precision : ℕ) : Except HumanizeError String :=
  if i < 0 then .error .assertNeg
  else
    match humanR.get? (order i) with
    | none => .error .indexError
    | some suffix =>
      .ok (String.mk (formatFixedL i (10 ^ (order i * 3)) precision) ++ suffix)

/-! ### `calibrate_yticks_text` -/

/-- `list(map(partial(humanize_number, precision=p), yticks))`: labels in
order, the first raised exception propagating. -/
def renderAll (ticks : List ℤ) (p : ℕ) : Except HumanizeError (List String) :=
  match ticks with
  | [] => .ok []
  | t :: ts =>
    match humanize_number t p with
    | .error e => .error e
    | .ok s =>
      match renderAll ts p with
      | .error e => .error e
      | .ok ls => .ok (s :: ls)

/-- The `while len(set(yticks_text)) < len(yticks_text)` loop of
`calibrate_yticks_text`, starting at precision `p` with `fuel` render
attempts left: `none` means the loop is still running, `some (.error e)`
that an exception propagated, `some (.ok ls)` that the pairwise-distinct
labels `ls` were returned. -/
def calibrateFuel (ticks : List ℤ) : ℕ → ℕ → Option (Except HumanizeError (List String))
  | _, 0 => none
  | p, fuel + 1 =>
    match renderAll ticks p with
    | .error e => some (.error e)
    | .ok ls => if ls.Nodup then some (.ok ls) else calibrateFuel ticks (p + 1) fuel

/-- `calibrate_yticks_text`, which starts the loop at precision 0. -/
def calibrate_yticks_text (ticks : List ℤ) (fuel : ℕ) :
    Option (Except HumanizeError (List String)) :=
  calibrateFuel ticks 0 fuel

/-- The label `humanize_number` produces when it does not raise. -/
def labelOf (t : ℤ) (p : ℕ) : String :=
  match humanize_number t p with
  | .ok s => s
  | .error _ => ""

/-! ### Header validation: `re.match('^#.+panacus (\S+) (.+)', header)` -/

/-- ASCII whitespace, the characters Python's `\s` matches (the source
only ever meets ASCII input). `\S` is its negation. -/
def isPatSpace (c : Char) : Bool :=
  c == ' ' || c == '\t' || c == '\n' || c == '\r' || c == '\x0c' || c == '\x0b'

/-- Match the pattern tail `(\S+) (.+)` against `rest`: a maximal
non-empty run of non-whitespace, a literal space, then at least one
non-newline character, the second group extending greedily to the first
newline.  A shorter `\S+` run is never tried because the character after a
shortened run is non-whitespace and cannot match the literal space. -/
def tailMatch (rest : List Char) : Option (List Char × List Char) :=
  let B := rest.takeWhile (fun c => !isPatSpace c)
  if B.isEmpty then none
  else
    match rest.drop B.length with
    | ' ' :: c :: cs =>
      if c = '\n' then none else some (B, (c :: cs).takeWhile (fun d => !(d == '\n')))
    | _ => none

/-- Candidate lengths `k` of the `.+` segment between `#` and the literal
`"panacus "`: at least one character, none of them a newline (`.` does not
match `\n`), the literal next, and a matching tail after it. -/
def candidateKs (rest : List Char) : List ℕ :=
  (List.range (rest.length + 1)).filter (fun k =>
    decide (1 ≤ k) && (rest.take k).all (fun c => !(c == '\n')) &&
      decide ((rest.drop k).take 8 = "panacus ".data) &&
      (tailMatch ((rest.drop k).drop 8)).isSome)

/-- `PAT_PANACUS.match(header)`, returning the two captured groups.  The
leading `.+` is greedy, so the rightmost viable split is taken: the last
entry of `candidateKs`. -/
def headerMatch (header : String) : Option (String × String) :=
  match header.data with
  | '#' :: rest =>
    match (candidateKs rest).getLast? with
    | some k =>
      (tailMatch ((rest.drop k).drop 8)).map (fun g => (String.mk g.1, String.mk g.2))
    | none => none
  | _ => none

/-! ### Count-type extraction from the argument string -/

/-- Split a character list at every character satisfying `p`; consecutive
separators yield empty pieces. -/
def splitPredL (p : Char → Bool) : List Char → List (List Char)
  | [] => [[]]
  | c :: rest =>
    if p c then [] :: splitPredL p rest
    else
      match splitPredL p rest with
      | [] => [[c]]
      | t :: ts => (c :: t) :: ts

/-- Python's `s.split(' ')`: split at every single space character;
consecutive spaces yield empty tokens, and no other character separates. -/
def splitOnSpaceL : List Char → List (List Char) :=
  splitPredL (fun c => c == ' ')

/-- Index of the first occurrence of `x`, `none` when absent —
`list.index` of Python together with the membership test. -/
def firstIdx (x : String) : List String → Option ℕ
  | [] => none
  | y :: ys => if y = x then some 0 else (firstIdx x ys).map (· + 1)

/-- Raised when `arg_list[arg_list.index(opt) + 1]` indexes past the end. -/
inductive ArgError where
  | indexOutOfRange
deriving DecidableEq, Repr

/-- The count-type extraction of `__main__`: split the argument string on
single spaces; if `'-c'` occurs, take the token after its first
occurrence; otherwise if `'--count'` occurs, take the token after its
first occurrence; otherwise the default `"node"`. -/
def countTypeOf (argList : String) : Except ArgError String :=
  let toks := (splitOnSpaceL argList.data).map String.mk
  match firstIdx "-c" toks with
  | some j =>
    match toks.get? (j + 1) with
    | some v => .ok v
    | none => .error .indexOutOfRange
  | none =>
    match firstIdx "--count" toks with
    | some j =>
      match toks.get? (j + 1) with
      | some v => .ok v
      | none => .error .indexOutOfRange
    | none => .ok "node"

/-- Modelled from the spec: the count-type rule as §4.1 words it, with the
argument string "split on whitespace into tokens" (Python's `s.split()`,
runs of any whitespace, no empty tokens) — the second definition of a
refinement pair, to compare with `countTypeOf` above. -/
def specCountType (argList : String) : Option String :=
  let toks := ((splitPredL isPatSpace argList.data).map String.mk).filter (fun t => t ≠ "")
  match firstIdx "-c" toks with
  | some j => toks.get? (j + 1)
  | none =>
    match firstIdx "--count" toks with
    | some j => toks.get? (j + 1)
    | none => some "node"

/-! ### The `__main__` header phase -/

/-- What an early `exit(1)` looks like from outside: the exit status, that
a message was printed to standard error, and that no PDF was written. -/
structure EarlyExit where
  code : ℕ
  errorPrinted : Bool
  pdfWritten : Bool
deriving DecidableEq, Repr

/-- The three accepted generating commands. -/
def allowedCommands : List String := ["ordered-histgrowth", "histgrowth", "growth"]

/-- The header-validation phase of `__main__`: no regex match, or a
command outside the allow-list, prints to stderr and exits with status 1
before any output is produced; otherwise the run proceeds with the
captured command and argument string. -/
def headerPhase (header : String) : Except EarlyExit (String × String) :=
  match headerMatch header with
  | none => .error ⟨1, true, false⟩
  | some (command, argList) =>
    if command ∈ allowedCommands then .ok (command, argList)
    else .error ⟨1, true, false⟩

/-! ### Column reordering: `sorted(df.columns, key=lambda x: (x[1], x[0]))` -/

/-- The order `sorted` uses under the key `(quorum, coverage)`:
lexicographic on the swapped pair. -/
def colOrder (a b : ℤ × ℤ) : Prop :=
  a.2 < b.2 ∨ (a.2 = b.2 ∧ a.1 ≤ b.1)

instance : DecidableRel colOrder := fun a b =>
  inferInstanceAs (Decidable (a.2 < b.2 ∨ (a.2 = b.2 ∧ a.1 ≤ b.1)))

instance : IsTotal (ℤ × ℤ) colOrder :=
  ⟨fun a b => by
    unfold colOrder
    rcases lt_trichotomy a.2 b.2 with h | h | h
    · exact Or.inl (Or.inl h)
    · rcases le_total a.1 b.1 with h1 | h1
      · exact Or.inl (Or.inr ⟨h, h1⟩)
      · exact Or.inr (Or.inr ⟨h.symm, h1⟩)
    · exact Or.inr (Or.inl h)⟩

instance : IsTrans (ℤ × ℤ) colOrder :=
  ⟨fun a b c hab hbc => by
    unfold colOrder at *
    rcases hab with h | ⟨h, h1⟩ <;> rcases hbc with h' | ⟨h', h1'⟩
    · exact Or.inl (h.trans h')
    · exact Or.inl (h' ▸ h)
    · exact Or.inl (h ▸ h')
    · exact Or.inr ⟨h.trans h', h1.trans h1'⟩⟩

/-- The column reordering the table loader applies. -/
def sortColumns (cols : List (ℤ × ℤ)) : List (ℤ × ℤ) :=
  List.insertionSort colOrder cols

/-! ### The rendering loop of `plot` -/

/-- One drawing call of `plot`'s loop: a bar series for a column, or an
overlaid dashed fitted curve for a column. -/
inductive PlotOp where
  | bar (c q : ℤ)
  | dashedCurve (c q : ℤ)
deriving DecidableEq, Repr

/-- The sequence of drawing calls `plot` makes over the (already
reordered) columns: for each column one bar series, followed by a dashed
fitted curve exactly when the overlay flag is set and the column's quorum
equals 1. -/
def plotOps : List (ℤ × ℤ) → Bool → List PlotOp
  | [], _ => []
  | (c, q) :: cols, est =>
    (PlotOp.bar c q :: if est && (q == 1) then [PlotOp.dashedCurve c q] else []) ++
      plotOps cols est

/-- Recognise a bar drawing call. -/
def isBar : PlotOp → Bool
  | .bar _ _ => true
  | .dashedCurve _ _ => false

/-- Recognise a dashed-curve drawing call. -/
def isDashed : PlotOp → Bool
  | .bar _ _ => false
  | .dashedCurve _ _ => true

/-- The characters `human_r[o]` contributes to a label. -/
def sufChars : ℕ → List Char
  | 1 => ['K']
  | 2 => ['M']
  | 3 => ['B']
  | 4 => ['D']
  | _ => []

/-- Recover the suffix order from the last character of a label. -/
def sufClass (c : Char) : ℕ :=
  if c = 'K' then 1 else if c = 'M' then 2 else if c = 'B' then 3
  else if c = 'D' then 4 else 0

/-- Left inverse of `renderN n p ++ sufChars o` (for `p > 0`): classify the
last character to find the suffix order, strip the suffix, and read the
number back. -/
def labelDecode (l : List Char) (p : ℕ) : ℕ × ℕ :=
  match l.getLast? with
  | none => (0, 0)
  | some c =>
    if sufClass c = 0 then (0, unformatN l p)
    else (sufClass c, unformatN l.dropLast p)

end VG

namespace VG

/-! ### Digit-string lemmas -/

theorem digitsRevF_zero : ∀ f, digitsRevF f 0 = []
  | 0 => rfl
  | _ + 1 => rfl

theorem ofDigitsN_digitsRevF : ∀ f n, n ≤ f → ofDigitsN (digitsRevF f n) = n
  | 0, n, h => by
    have hn : n = 0 := Nat.le_zero.mp h
    subst hn; rfl
  | f + 1, n, h => by
    by_cases h0 : n = 0
    · subst h0; rfl
    · have hlt : n / 10 < n := Nat.div_lt_self (Nat.pos_of_ne_zero h0) (by norm_num)
      have hd : n / 10 ≤ f := by omega
      simp only [digitsRevF, h0, if_false, ofDigitsN]
      rw [ofDigitsN_digitsRevF f (n / 10) hd]
      omega

theorem digitsRevF_lt : ∀ f n d, d ∈ digitsRevF f n → d < 10
  | 0, _, _, h => by simp [digitsRevF] at h
  | f + 1, n, d, h => by
    by_cases h0 : n = 0
    · subst h0; simp [digitsRevF] at h
    · simp only [digitsRevF, h0, if_false, List.mem_cons] at h
      rcases h with h | h
      · subst h; exact Nat.mod_lt _ (by norm_num)
      · exact digitsRevF_lt f (n / 10) d h

theorem length_digitsRevF : ∀ f n, 0 < n → n ≤ f → (digitsRevF f n).length = Nat.log 10 n + 1
  | 0, _, h1, h2 => by omega
  | f + 1, n, h1, h2 => by
    have h0 : n ≠ 0 := Nat.pos_iff_ne_zero.mp h1
    by_cases h10 : n < 10
    · have hq : n / 10 = 0 := Nat.div_eq_of_lt h10
      simp only [digitsRevF, h0, if_false, hq, digitsRevF_zero, List.length_cons,
        List.length_nil]
      have : Nat.log 10 n = 0 := Nat.log_eq_zero_iff.mpr (Or.inl h10)
      omega
    · have h1' : 0 < n / 10 := Nat.div_pos (le_of_not_lt h10) (by norm_num)
      have hlt : n / 10 < n := Nat.div_lt_self h1 (by norm_num)
      have h2' : n / 10 ≤ f := by omega
      simp only [digitsRevF, h0, if_false, List.length_cons]
      rw [length_digitsRevF f (n / 10) h1' h2']
      rw [Nat.log_div_base 10 n]
      have hlog : 1 ≤ Nat.log 10 n :=
        Nat.le_log_of_pow_le (by norm_num) (by simpa using le_of_not_lt h10)
      omega

theorem length_digitsRev (n : ℕ) (h : 0 < n) : (digitsRev n).length = Nat.log 10 n + 1 :=
  length_digitsRevF n n h le_rfl

theorem charVal_digitChar : ∀ d, d < 10 → charVal (digitChar d) = d := by decide

theorem digitChar_isDigit : ∀ d, d < 10 → (digitChar d).isDigit = true := by decide

theorem digitChar_ne : ∀ d, d < 10 →
    ((digitChar d == ',') = false ∧ (digitChar d == '.') = false) := by decide

theorem digitsStr_ne_nil (n : ℕ) : digitsStr n ≠ [] := by
  unfold digitsStr
  split
  · simp
  · intro h
    have h0 : (n ≠ 0) := by assumption
    have : digitsRev n ≠ [] := by
      intro hc
      have := ofDigitsN_digitsRevF n n le_rfl
      rw [digitsRev] at hc
      rw [hc] at this
      exact h0 (by simpa [ofDigitsN] using this.symm)
    simp only [List.reverse_eq_nil_iff, List.map_eq_nil_iff] at h
    exact this (by rw [digitsRev]; exact h)

theorem mem_digitsStr_isDigit (n : ℕ) : ∀ c ∈ digitsStr n, c.isDigit = true := by
  intro c hc
  unfold digitsStr at hc
  split at hc
  · rcases List.mem_singleton.mp hc with rfl
    decide
  · rcases List.mem_reverse.mp hc with hc'
    rcases List.mem_map.mp hc' with ⟨d, hd, rfl⟩
    exact digitChar_isDigit d (digitsRevF_lt n n d hd)

theorem mem_digitsStr_ne (n : ℕ) :
    ∀ c ∈ digitsStr n, (c == ',') = false ∧ (c == '.') = false := by
  intro c hc
  unfold digitsStr at hc
  split at hc
  · rcases List.mem_singleton.mp hc with rfl
    exact ⟨rfl, rfl⟩
  · rcases List.mem_reverse.mp hc with hc'
    rcases List.mem_map.mp hc' with ⟨d, hd, rfl⟩
    exact digitChar_ne d (digitsRevF_lt n n d hd)

theorem unDigits_digitsStr (n : ℕ) : unDigits (digitsStr n) = n := by
  unfold digitsStr unDigits
  split
  · rename_i h; subst h; rfl
  · rw [List.reverse_reverse]
    have hmap : (digitsRev n).map (fun d => charVal (digitChar d)) = digitsRev n := by
      apply List.map_congr_left ?_ |>.trans (List.map_id _)
      intro d hd
      exact charVal_digitChar d (digitsRevF_lt n n d hd)
    rw [List.map_map]
    calc ofDigitsN ((digitsRev n).map (charVal ∘ digitChar)) = ofDigitsN (digitsRev n) := by
          rw [show (charVal ∘ digitChar) = fun d => charVal (digitChar d) from rfl, hmap]
      _ = n := ofDigitsN_digitsRevF n n le_rfl

/-! ### The rendering of `renderN` is invertible -/

theorem takeWhile_append_stop (P : Char → Bool) :
    ∀ (a : List Char) (x : Char) (b : List Char), (∀ c ∈ a, P c = true) → P x = false →
      (a ++ x :: b).takeWhile P = a
  | [], x, b, _, hx => by simp [List.takeWhile_cons, hx]
  | c :: a, x, b, ha, hx => by
    have hc : P c = true := ha c (List.mem_cons_self _ _)
    simp only [List.cons_append, List.takeWhile_cons, hc, if_true]
    rw [takeWhile_append_stop P a x b (fun d hd => ha d (List.mem_cons_of_mem _ hd)) hx]

theorem dropWhile_append_stop (P : Char → Bool) :
    ∀ (a : List Char) (x : Char) (b : List Char), (∀ c ∈ a, P c = true) → P x = false →
      (a ++ x :: b).dropWhile P = x :: b
  | [], x, b, _, hx => by simp [List.dropWhile_cons, hx]
  | c :: a, x, b, ha, hx => by
    have hc : P c = true := ha c (List.mem_cons_self _ _)
    simp only [List.cons_append, List.dropWhile_cons, hc, if_true]
    exact dropWhile_append_stop P a x b (fun d hd => ha d (List.mem_cons_of_mem _ hd)) hx

theorem ofDigitsN_append_zeros : ∀ (L : List ℕ) (k : ℕ),
    ofDigitsN (L ++ List.replicate k 0) = ofDigitsN L
  | [], k => by
    induction k with
    | zero => rfl
    | succ k ih => simpa [List.replicate_succ, ofDigitsN] using ih
  | d :: L, k => by
    simp only [List.cons_append, ofDigitsN]
    rw [show (L.append (List.replicate k 0)) = L ++ List.replicate k 0 from rfl,
      ofDigitsN_append_zeros L k]

theorem unDigits_padFrac (p : ℕ) (ds : List Char) : unDigits (padFrac p ds) = unDigits ds := by
  unfold padFrac unDigits
  rw [List.reverse_append, List.reverse_replicate, List.map_append, List.map_replicate]
  have h0 : charVal '0' = 0 := rfl
  rw [h0, ofDigitsN_append_zeros]

theorem filter_commaGroupRevF : ∀ (f : ℕ) (l : List Char), (∀ c ∈ l, (c == ',') = false) →
    (commaGroupRevF f l).filter (fun c => !(c == ',')) = l
  | 0, l, h => List.filter_eq_self.mpr (fun a ha => by simp [h a ha])
  | f + 1, l, h => by
    simp only [commaGroupRevF]
    split
    · exact List.filter_eq_self.mpr (fun a ha => by simp [h a ha])
    · rw [List.filter_append]
      have h1 : (l.take 3).filter (fun c => !(c == ',')) = l.take 3 :=
        List.filter_eq_self.mpr (fun a ha => by simp [h a (List.mem_of_mem_take ha)])
      have h2 : (',' :: commaGroupRevF f (l.drop 3)).filter (fun c => !(c == ',')) =
          (commaGroupRevF f (l.drop 3)).filter (fun c => !(c == ',')) := by
        simp [List.filter_cons]
      rw [h1, h2,
        filter_commaGroupRevF f (l.drop 3) (fun c hc => h c (List.mem_of_mem_drop hc))]
      exact List.take_append_drop 3 l

theorem stripCommas_commaGroup (ds : List Char) (h : ∀ c ∈ ds, (c == ',') = false) :
    stripCommas (commaGroup ds) = ds := by
  unfold stripCommas commaGroup
  rw [List.filter_reverse,
    filter_commaGroupRevF _ _ (fun c hc => h c (List.mem_reverse.mp hc)),
    List.reverse_reverse]

theorem getLast?_append_right (a b : List Char) (h : b ≠ []) :
    (a ++ b).getLast? = b.getLast? := by
  rw [List.getLast?_append]
  cases hb : b.getLast? with
  | none => exact absurd (List.getLast?_eq_none_iff.mp hb) h
  | some c => rfl

theorem mem_padFrac (p : ℕ) (ds : List Char) :
    ∀ c ∈ padFrac p ds, c = '0' ∨ c ∈ ds := by
  intro c hc
  unfold padFrac at hc
  rcases List.mem_append.mp hc with hc | hc
  · exact Or.inl (List.eq_of_mem_replicate hc)
  · exact Or.inr hc

theorem unformatN_renderN (n p : ℕ) : unformatN (renderN n p) p = n := by
  have hA : stripCommas (commaGroup (digitsStr (n / 10 ^ p))) = digitsStr (n / 10 ^ p) :=
    stripCommas_commaGroup _ (fun c hc => (mem_digitsStr_ne _ c hc).1)
  by_cases hp : p = 0
  · subst hp
    have h1 : renderN n 0 = commaGroup (digitsStr n) := by
      simp [renderN]
    have h2 : ∀ l, unformatN l 0 = unDigits (stripCommas l) := by
      intro l
      simp [unformatN]
    rw [h1, h2, stripCommas_commaGroup _ (fun c hc => (mem_digitsStr_ne _ c hc).1),
      unDigits_digitsStr]
  · unfold renderN unformatN
    simp only [hp, if_false]
    have hpadmem : ∀ c ∈ padFrac p (digitsStr (n % 10 ^ p)), (c == ',') = false := by
      intro c hc
      rcases mem_padFrac _ _ c hc with rfl | hc'
      · rfl
      · exact (mem_digitsStr_ne _ c hc').1
    have hstrip : stripCommas (commaGroup (digitsStr (n / 10 ^ p)) ++
        '.' :: padFrac p (digitsStr (n % 10 ^ p))) =
        digitsStr (n / 10 ^ p) ++ '.' :: padFrac p (digitsStr (n % 10 ^ p)) := by
      unfold stripCommas
      rw [List.filter_append]
      unfold stripCommas at hA
      rw [hA]
      congr 1
      exact List.filter_eq_self.mpr (by
        intro a ha
        rcases List.mem_cons.mp ha with rfl | ha'
        · rfl
        · simp [hpadmem a ha'])
    rw [hstrip]
    have hdigpass : ∀ c ∈ digitsStr (n / 10 ^ p), (fun c => !(c == '.')) c = true := by
      intro c hc
      simp [(mem_digitsStr_ne _ c hc).2]
    rw [takeWhile_append_stop (fun c => !(c == '.')) (digitsStr (n / 10 ^ p)) '.'
        (padFrac p (digitsStr (n % 10 ^ p))) hdigpass (by decide),
      dropWhile_append_stop (fun c => !(c == '.')) (digitsStr (n / 10 ^ p)) '.'
        (padFrac p (digitsStr (n % 10 ^ p))) hdigpass (by decide)]
    simp only [List.drop_one, List.tail_cons]
    rw [unDigits_digitsStr, unDigits_padFrac, unDigits_digitsStr]
    rw [Nat.mul_comm (n / 10 ^ p) (10 ^ p)]
    exact Nat.div_add_mod n (10 ^ p)

theorem renderN_inj (n m p : ℕ) (h : renderN n p = renderN m p) : n = m := by
  have h2 := congrArg (fun l => unformatN l p) h
  simpa [unformatN_renderN] using h2

theorem renderN_getLast?_digit (n p : ℕ) (hp : p ≠ 0) :
    ∃ c, (renderN n p).getLast? = some c ∧ c.isDigit = true := by
  unfold renderN
  simp only [hp, if_false]
  have hB : digitsStr (n % 10 ^ p) ≠ [] := digitsStr_ne_nil _
  have hpad : padFrac p (digitsStr (n % 10 ^ p)) ≠ [] := by
    unfold padFrac
    intro hc
    exact hB (List.append_eq_nil.mp hc).2
  rw [getLast?_append_right _ _ (by simp),
    show ('.' :: padFrac p (digitsStr (n % 10 ^ p))) =
      ['.'] ++ padFrac p (digitsStr (n % 10 ^ p)) from rfl,
    getLast?_append_right _ _ hpad]
  unfold padFrac
  rw [getLast?_append_right _ _ hB,
    List.getLast?_eq_getLast_of_ne_nil hB]
  exact ⟨_, rfl, mem_digitsStr_isDigit _ _ (List.getLast_mem hB)⟩

/-! ### Decoding a full label (digits plus suffix) -/

theorem sufClass_of_digit (c : Char) (h : c.isDigit = true) : sufClass c = 0 := by
  unfold sufClass
  split_ifs with h1 h2 h3 h4
  · subst h1; exact absurd h (by decide)
  · subst h2; exact absurd h (by decide)
  · subst h3; exact absurd h (by decide)
  · subst h4; exact absurd h (by decide)
  · rfl

theorem labelDecode_renderN (n p o : ℕ) (hp : p ≠ 0) (ho : o < 5) :
    labelDecode (renderN n p ++ sufChars o) p = (o, n) := by
  obtain ⟨c, hc, hdig⟩ := renderN_getLast?_digit n p hp
  interval_cases o
  · simp [labelDecode, sufChars, hc, sufClass_of_digit c hdig, unformatN_renderN]
  · simp [labelDecode, sufChars, List.getLast?_concat, sufClass, List.dropLast_concat,
      unformatN_renderN]
  · simp [labelDecode, sufChars, List.getLast?_concat, sufClass, List.dropLast_concat,
      unformatN_renderN]
  · simp [labelDecode, sufChars, List.getLast?_concat, sufClass, List.dropLast_concat,
      unformatN_renderN]
  · simp [labelDecode, sufChars, List.getLast?_concat, sufClass, List.dropLast_concat,
      unformatN_renderN]

/-! ### `order` and the range of inputs `humanize_number` accepts -/

theorem order_nonpos (i : ℤ) (h : i ≤ 0) : order i = 0 := by
  unfold order
  rw [if_pos h]

theorem order_eq_log (i : ℤ) (h : 0 < i) : order i = Nat.log 10 i.toNat / 3 := by
  unfold order
  rw [if_neg (not_le.mpr h), length_digitsRev _ (by omega)]
  simp

theorem order_lt_five (i : ℤ) (h0 : 0 ≤ i) (h1 : i < 10 ^ 15) : order i < 5 := by
  rcases eq_or_lt_of_le h0 with h | h
  · rw [order_nonpos i h.symm.le]
    norm_num
  · rw [order_eq_log i h]
    have htn : i.toNat < 10 ^ 15 := by omega
    have := Nat.log_lt_of_lt_pow (by omega : i.toNat ≠ 0) htn
    omega

theorem five_le_order (i : ℤ) (h : (10 : ℤ) ^ 15 ≤ i) : 5 ≤ order i := by
  have hp : (0 : ℤ) < i := lt_of_lt_of_le (by norm_num) h
  rw [order_eq_log i hp]
  have htn : 10 ^ 15 ≤ i.toNat := by omega
  have := Nat.le_log_of_pow_le (by norm_num : 1 < 10) htn
  omega

theorem humanR_get?_eq : ∀ o, o < 5 → ∃ s, humanR.get? o = some s ∧ s.data = sufChars o := by
  decide

theorem humanize_of_neg (i : ℤ) (p : ℕ) (h : i < 0) :
    humanize_number i p = .error .assertNeg := by
  unfold humanize_number
  rw [if_pos h]

theorem humanize_of_big (i : ℤ) (p : ℕ) (h : (10 : ℤ) ^ 15 ≤ i) :
    humanize_number i p = .error .indexError := by
  unfold humanize_number
  rw [if_neg (by omega : ¬i < 0)]
  have h5 := five_le_order i h
  rw [List.get?_eq_none.mpr (by simpa [humanR] using h5)]

theorem roundHE_exact (k b : ℤ) (hb : 0 < b) : roundHE (k * b) b = k := by
  unfold roundHE
  rw [Int.mul_fdiv_cancel k (ne_of_gt hb)]
  simp only [sub_self, mul_zero]
  rw [if_pos hb]

theorem humanize_label (i : ℤ) (p : ℕ) (h0 : 0 ≤ i) (h1 : i < 10 ^ 15)
    (hp : order i * 3 ≤ p) :
    humanize_number i p =
      .ok (String.mk (renderN (i.toNat * 10 ^ (p - order i * 3)) p ++ sufChars (order i))) := by
  obtain ⟨s, hs, hsd⟩ := humanR_get?_eq (order i) (order_lt_five i h0 h1)
  unfold humanize_number
  rw [if_neg (not_lt.mpr h0), hs]
  have hfmt : formatFixedL i (10 ^ (order i * 3)) p =
      renderN (i.toNat * 10 ^ (p - order i * 3)) p := by
    unfold formatFixedL
    have hcalc : i * 10 ^ p = (i * 10 ^ (p - order i * 3)) * 10 ^ (order i * 3) := by
      rw [mul_assoc, ← pow_add]
      rw [show p - order i * 3 + order i * 3 = p by omega]
    rw [hcalc, roundHE_exact _ _ (by positivity)]
    congr 1
    have hcast : i * 10 ^ (p - order i * 3) = ((i.toNat * 10 ^ (p - order i * 3) : ℕ) : ℤ) := by
      push_cast
      rw [Int.toNat_of_nonneg h0]
    rw [hcast, Int.toNat_natCast]
  rw [hfmt]
  obtain ⟨sd⟩ := s
  simp only [String.data] at hsd
  subst hsd
  rfl

theorem labelOf_of_ok (t : ℤ) (p : ℕ) (s : String) (h : humanize_number t p = .ok s) :
    labelOf t p = s := by
  unfold labelOf
  rw [h]

theorem labelOf_inj12 (i j : ℤ) (hi0 : 0 ≤ i) (hi1 : i < 10 ^ 15) (hj0 : 0 ≤ j)
    (hj1 : j < 10 ^ 15) (h : labelOf i 12 = labelOf j 12) : i = j := by
  have hpi : order i * 3 ≤ 12 := by have := order_lt_five i hi0 hi1; omega
  have hpj : order j * 3 ≤ 12 := by have := order_lt_five j hj0 hj1; omega
  have li := labelOf_of_ok i 12 _ (humanize_label i 12 hi0 hi1 hpi)
  have lj := labelOf_of_ok j 12 _ (humanize_label j 12 hj0 hj1 hpj)
  rw [li, lj] at h
  have hdata := congrArg String.data h
  simp only [String.data] at hdata
  have hdec := congrArg (fun l => labelDecode l 12) hdata
  simp only [labelDecode_renderN _ 12 _ (by norm_num) (order_lt_five i hi0 hi1),
    labelDecode_renderN _ 12 _ (by norm_num) (order_lt_five j hj0 hj1)] at hdec
  have ho : order i = order j := (Prod.mk.injEq _ _ _ _).mp hdec |>.1
  have hn : i.toNat * 10 ^ (12 - order i * 3) = j.toNat * 10 ^ (12 - order j * 3) :=
    (Prod.mk.injEq _ _ _ _).mp hdec |>.2
  rw [← ho] at hn
  have : i.toNat = j.toNat := Nat.eq_of_mul_eq_mul_right (by positivity) hn
  omega

/-! ### The calibration loop -/

theorem humanize_of_ok (i : ℤ) (p : ℕ) (h0 : 0 ≤ i) (h1 : i < 10 ^ 15) :
    ∃ s, humanize_number i p = .ok s := by
  obtain ⟨s, hs, _⟩ := humanR_get?_eq (order i) (order_lt_five i h0 h1)
  unfold humanize_number
  rw [if_neg (not_lt.mpr h0), hs]
  exact ⟨_, rfl⟩

theorem renderAll_ok (ticks : List ℤ) (p : ℕ) (h : ∀ t ∈ ticks, 0 ≤ t ∧ t < 10 ^ 15) :
    renderAll ticks p = .ok (ticks.map (fun t => labelOf t p)) := by
  induction ticks with
  | nil => rfl
  | cons t ts ih =>
    obtain ⟨s, hs⟩ :=
      humanize_of_ok t p (h t (List.mem_cons_self t ts)).1 (h t (List.mem_cons_self t ts)).2
    unfold renderAll
    rw [hs, ih (fun u hu => h u (List.mem_cons_of_mem _ hu))]
    rw [List.map_cons, labelOf_of_ok t p s hs]

theorem renderAll_error (ticks : List ℤ) (p : ℕ)
    (h : ∃ t ∈ ticks, ∃ e, humanize_number t p = .error e) :
    ∃ e, renderAll ticks p = .error e := by
  induction ticks with
  | nil => simp at h
  | cons t ts ih =>
    cases hr : humanize_number t p with
    | error e =>
      refine ⟨e, ?_⟩
      unfold renderAll
      rw [hr]
    | ok s =>
      obtain ⟨u, hu, e, he⟩ := h
      rcases List.mem_cons.mp hu with rfl | hu'
      · rw [hr] at he
        exact absurd he (by simp)
      · obtain ⟨e', he'⟩ := ih ⟨u, hu', e, he⟩
        refine ⟨e', ?_⟩
        unfold renderAll
        rw [hr, he']

theorem calibrateFuel_isSome_of_stop : ∀ (k : ℕ) (ticks : List ℤ) (p : ℕ),
    ((∃ e, renderAll ticks (p + k) = .error e) ∨
      (∃ ls, renderAll ticks (p + k) = .ok ls ∧ ls.Nodup)) →
    (calibrateFuel ticks p (k + 1)).isSome = true
  | 0, ticks, p, h => by
    unfold calibrateFuel
    rw [add_zero] at h
    rcases h with ⟨e, he⟩ | ⟨ls, hls, hnd⟩
    · rw [he]
      rfl
    · rw [hls]
      dsimp only
      rw [if_pos hnd]
      rfl
  | k + 1, ticks, p, h => by
    unfold calibrateFuel
    cases hr : renderAll ticks p with
    | error e => rfl
    | ok ls =>
      dsimp only
      by_cases hnd : ls.Nodup
      · rw [if_pos hnd]
        rfl
      · rw [if_neg hnd]
        apply calibrateFuel_isSome_of_stop k ticks (p + 1)
        rw [show p + 1 + k = p + (k + 1) by omega]
        exact h

theorem calibrateFuel_none_of_dup (ticks : List ℤ)
    (h : ∀ t ∈ ticks, 0 ≤ t ∧ t < 10 ^ 15) (hdup : ¬ticks.Nodup) :
    ∀ fuel p, calibrateFuel ticks p fuel = none := by
  intro fuel
  induction fuel with
  | zero => intro p; rfl
  | succ k ih =>
    intro p
    unfold calibrateFuel
    rw [renderAll_ok ticks p h]
    dsimp only
    rw [if_neg (fun hn => hdup (hn.of_map _))]
    exact ih (p + 1)

/-! ### The drawing loop -/

theorem plotOps_filter_isBar : ∀ (l : List (ℤ × ℤ)) (est : Bool),
    ((plotOps l est).filter isBar).length = l.length
  | [], _ => rfl
  | (c, q) :: l, est => by
    unfold plotOps
    rw [List.filter_append, List.length_append]
    have h1 : ((PlotOp.bar c q ::
        if est && (q == 1) then [PlotOp.dashedCurve c q] else []).filter isBar).length = 1 := by
      by_cases h : (est && (q == 1)) = true
      · rw [if_pos h]
        rfl
      · rw [if_neg h]
        rfl
    rw [h1, plotOps_filter_isBar l est, List.length_cons]
    omega

theorem plotOps_filter_isDashed_true : ∀ l : List (ℤ × ℤ),
    ((plotOps l true).filter isDashed).length = (l.filter (fun cq => cq.2 == 1)).length
  | [] => rfl
  | (c, q) :: l => by
    unfold plotOps
    rw [List.filter_append, List.length_append]
    by_cases hq : (q == 1) = true
    · rw [if_pos (by simp [hq])]
      rw [show ((PlotOp.bar c q :: [PlotOp.dashedCurve c q]).filter isDashed).length = 1
        from rfl]
      rw [plotOps_filter_isDashed_true l]
      simp only [List.filter_cons, hq, if_pos, List.length_cons]
      omega
    · rw [if_neg (by simpa using hq)]
      rw [show ((PlotOp.bar c q :: ([] : List PlotOp)).filter isDashed).length = 0 from rfl]
      rw [plotOps_filter_isDashed_true l]
      have hq' : (q == 1) = false := by simpa using hq
      simp [List.filter_cons, hq']

theorem plotOps_filter_isDashed_false : ∀ l : List (ℤ × ℤ),
    (plotOps l false).filter isDashed = []
  | [] => rfl
  | (c, q) :: l => by
    unfold plotOps
    rw [List.filter_append]
    rw [if_neg (by simp)]
    rw [show (PlotOp.bar c q :: ([] : List PlotOp)).filter isDashed = [] from rfl,
      plotOps_filter_isDashed_false l]
    rfl

theorem mem_plotOps_dashed : ∀ (l : List (ℤ × ℤ)) (est : Bool) (c q : ℤ),
    PlotOp.dashedCurve c q ∈ plotOps l est → est = true ∧ q = 1 ∧ (c, q) ∈ l
  | [], _, c, q, h => by simp [plotOps] at h
  | (c', q') :: l, est, c, q, h => by
    unfold plotOps at h
    rcases List.mem_append.mp h with h | h
    · rcases List.mem_cons.mp h with h | h
      · exact PlotOp.noConfusion h
      · by_cases hc : (est && (q' == 1)) = true
        · rw [if_pos hc] at h
          have h' := List.mem_singleton.mp h
          injection h' with hc1 hq1
          subst hc1
          subst hq1
          refine ⟨(Bool.and_eq_true _ _ |>.mp hc).1, ?_, List.mem_cons_self _ _⟩
          have := (Bool.and_eq_true _ _ |>.mp hc).2
          exact beq_iff_eq.mp this
        · rw [if_neg hc] at h
          simp at h
    · obtain ⟨he, hq, hm⟩ := mem_plotOps_dashed l est c q h
      exact ⟨he, hq, List.mem_cons_of_mem _ hm⟩

/-! ### The claims -/

/-- C1 (counterexample): on the input columns `(1,2), (3,1), (2,1)` the
loader's reordering yields `(2,1), (3,1), (1,2)` — quorum ascending, then
coverage ascending — not the claimed `(3,1), (2,1), (1,2)`. -/
theorem c1_counterexample :
    sortColumns [((1 : ℤ), (2 : ℤ)), (3, 1), (2, 1)] = [(2, 1), (3, 1), (1, 2)] ∧
    sortColumns [((1 : ℤ), (2 : ℤ)), (3, 1), (2, 1)] ≠ [(3, 1), (2, 1), (1, 2)] := by
  constructor
  · decide
  · decide

/-- C1 (amended): the loader re-orders columns ascending first by quorum
then by coverage; for the input columns `(1,2), (3,1), (2,1)` the
post-sort order is `(2,1), (3,1), (1,2)`.  In general the result is
sorted under the quorum-then-coverage order and is a permutation of the
input columns. -/
theorem c1_column_reorder :
    sortColumns [((1 : ℤ), (2 : ℤ)), (3, 1), (2, 1)] = [(2, 1), (3, 1), (1, 2)] ∧
    ∀ cols : List (ℤ × ℤ),
      List.Sorted colOrder (sortColumns cols) ∧ (sortColumns cols).Perm cols :=
  ⟨by decide, fun cols =>
    ⟨List.sorted_insertionSort colOrder cols, List.perm_insertionSort colOrder cols⟩⟩

/-- C2 (counterexample): `humanize_number` does not return a label for the
non-negative input `10 ^ 15`; it raises an out-of-range indexing error,
so it does not fail only via the negativity assertion. -/
theorem c2_counterexample :
    (0 : ℤ) ≤ 10 ^ 15 ∧ humanize_number (10 ^ 15) 0 = .error .indexError := by
  constructor
  · decide
  · decide

/-- C2 (amended): `humanize_number` fails via the assertion exactly when
its input is negative, returns a label for every non-negative input below
`10 ^ 15`, and fails with an out-of-range indexing error for every input
at or above `10 ^ 15`. -/
theorem c2_failure_modes (i : ℤ) (p : ℕ) :
    (i < 0 → humanize_number i p = .error .assertNeg) ∧
    (0 ≤ i → i < 10 ^ 15 → ∃ s, humanize_number i p = .ok s) ∧
    ((10 : ℤ) ^ 15 ≤ i → humanize_number i p = .error .indexError) :=
  ⟨fun h => humanize_of_neg i p h,
   fun h0 h1 => humanize_of_ok i p h0 h1,
   fun h => humanize_of_big i p h⟩

/-- Witness for C2 (amended) at the inputs `-1`, `999` and `10 ^ 15`. -/
theorem c2_failure_modes_witness :
    humanize_number (-1) 0 = .error .assertNeg ∧
    (∃ s, humanize_number 999 0 = .ok s) ∧
    humanize_number (10 ^ 15) 0 = .error .indexError :=
  ⟨(c2_failure_modes (-1) 0).1 (by decide),
   (c2_failure_modes 999 0).2.1 (by decide) (by decide),
   (c2_failure_modes (10 ^ 15) 0).2.2 (by decide)⟩

/-- C3: `calibrate_yticks_text` starts at precision 0 and re-renders the
whole label set at precision one higher while two labels collide (this is
the loop `calibrateFuel` embeds); for every finite sequence of
pairwise-distinct non-negative tick values the loop terminates — with the
distinct label set, or by propagating an exception raised by the
formatter. -/
theorem c3_calibrate_terminates (ticks : List ℤ) (h1 : ticks.Pairwise (· ≠ ·))
    (h2 : ∀ t ∈ ticks, 0 ≤ t) :
    ∃ fuel r, calibrate_yticks_text ticks fuel = some r := by
  by_cases hb : ∀ t ∈ ticks, t < 10 ^ 15
  · have hall : ∀ t ∈ ticks, 0 ≤ t ∧ t < 10 ^ 15 := fun t ht => ⟨h2 t ht, hb t ht⟩
    have hnd : ticks.Nodup := h1
    have hlabels : (ticks.map (fun t => labelOf t 12)).Nodup :=
      hnd.map_on (fun x hx y hy hf =>
        labelOf_inj12 x y (hall x hx).1 (hall x hx).2 (hall y hy).1 (hall y hy).2 hf)
    have hstop : ∃ ls, renderAll ticks (0 + 12) = .ok ls ∧ ls.Nodup := by
      refine ⟨_, ?_, hlabels⟩
      rw [show (0 : ℕ) + 12 = 12 from rfl]
      exact renderAll_ok ticks 12 hall
    have hsome := calibrateFuel_isSome_of_stop 12 ticks 0 (Or.inr hstop)
    obtain ⟨r, hr⟩ := Option.isSome_iff_exists.mp hsome
    exact ⟨13, r, hr⟩
  · push_neg at hb
    obtain ⟨t, ht, hbig⟩ := hb
    have herr : ∃ e, renderAll ticks (0 + 0) = .error e :=
      renderAll_error ticks 0 ⟨t, ht, .indexError, humanize_of_big t 0 hbig⟩
    have hsome := calibrateFuel_isSome_of_stop 0 ticks 0 (Or.inl herr)
    obtain ⟨r, hr⟩ := Option.isSome_iff_exists.mp hsome
    exact ⟨1, r, hr⟩

/-- Witness for C3 at the colliding-then-separating ticks `[1000, 1400]`. -/
theorem c3_calibrate_terminates_witness :
    ∃ fuel r, calibrate_yticks_text [1000, 1400] fuel = some r :=
  c3_calibrate_terminates [1000, 1400] (by decide) (by decide)

/-- C4: `humanize_number 0 0 = "0"`, `humanize_number 1500 0 = "2K"`
(rounding), `humanize_number 999 0 = "999"`; the suffix table is
`['', 'K', 'M', 'B', 'D']`, the order formula is `⌊log10 value⌋ / 3`,
and value 0 maps to the empty suffix without crashing at any precision. -/
theorem c4_humanize_values :
    humanize_number 0 0 = .ok "0" ∧
    humanize_number 1500 0 = .ok "2K" ∧
    humanize_number 999 0 = .ok "999" ∧
    humanR = ["", "K", "M", "B", "D"] ∧
    order 0 = 0 ∧
    humanR.get? (order 0) = some "" ∧
    (∀ p, ∃ s, humanize_number 0 p = .ok s) ∧
    (∀ (i : ℤ) (p : ℕ), 0 < i → i < 10 ^ 15 →
      ∃ body, humanize_number i p =
        .ok (String.mk body ++ (humanR.get? (Nat.log 10 i.toNat / 3)).getD "")) := by
  refine ⟨by decide, by decide, by decide, rfl, rfl, rfl, ?_, ?_⟩
  · intro p
    exact humanize_of_ok 0 p le_rfl (by decide)
  · intro i p h0 h1
    obtain ⟨s, hs, _⟩ := humanR_get?_eq (order i) (order_lt_five i h0.le h1)
    refine ⟨formatFixedL i (10 ^ (order i * 3)) p, ?_⟩
    unfold humanize_number
    rw [if_neg (not_lt.mpr h0.le), hs, ← order_eq_log i h0, hs]
    rfl

/-- Witness for C4's final clause at the input `1500`. -/
theorem c4_humanize_values_witness :
    (0 : ℤ) < 1500 ∧ (1500 : ℤ) < 10 ^ 15 ∧
    ∃ body, humanize_number 1500 0 =
      .ok (String.mk body ++ (humanR.get? (Nat.log 10 (1500 : ℤ).toNat / 3)).getD "") :=
  ⟨by decide, by decide,
   c4_humanize_values.2.2.2.2.2.2.2 1500 0 (by decide) (by decide)⟩

/-- C5: a first line that does not match the marker pattern, or one whose
extracted command is not among the three growth-table commands, makes the
run exit with status 1 after printing to standard error, with no PDF
written. -/
theorem c5_header_exit (header : String) :
    (headerMatch header = none → headerPhase header = .error ⟨1, true, false⟩) ∧
    (∀ cmd args, headerMatch header = some (cmd, args) → cmd ∉ allowedCommands →
      headerPhase header = .error ⟨1, true, false⟩) := by
  constructor
  · intro h
    unfold headerPhase
    rw [h]
  · intro cmd args h hc
    unfold headerPhase
    rw [h]
    dsimp only
    rw [if_neg hc]

/-- Witness for C5 at a malformed header and at a non-growth command. -/
theorem c5_header_exit_witness :
    headerPhase "not a growth file\n" = .error ⟨1, true, false⟩ ∧
    headerPhase "# panacus hist -c bp\n" = .error ⟨1, true, false⟩ :=
  ⟨(c5_header_exit "not a growth file\n").1 (by decide),
   (c5_header_exit "# panacus hist -c bp\n").2 "hist" "-c bp" (by decide) (by decide)⟩

/-- C6 (counterexample): the code splits the argument string on single
space characters, not on whitespace: for the matched header argument
string containing a double space, the produced count-type is the empty
token `""`, while the token following `-c` under whitespace tokenization
is `"bp"`. -/
theorem c6_counterexample :
    headerMatch "# panacus histgrowth -c  bp\n" = some ("histgrowth", "-c  bp") ∧
    "histgrowth" ∈ allowedCommands ∧
    countTypeOf "-c  bp" = .ok "" ∧
    specCountType "-c  bp" = some "bp" ∧
    ("" : String) ≠ "bp" := by
  refine ⟨by decide, by decide, by decide, by decide, by decide⟩

/-- C6 (amended): for every header matching the pattern with an allowed
command, extraction succeeds and the run proceeds; the argument string is
split at single space characters (consecutive spaces produce empty
tokens, other whitespace does not separate), and the count-type is the
token after the first `-c` if present, else the token after the first
`--count` if present, else `"node"`. -/
theorem c6_counttype (header cmd args : String)
    (hm : headerMatch header = some (cmd, args)) (hc : cmd ∈ allowedCommands) :
    headerPhase header = .ok (cmd, args) ∧
    (∀ j v, firstIdx "-c" ((splitOnSpaceL args.data).map String.mk) = some j →
      ((splitOnSpaceL args.data).map String.mk).get? (j + 1) = some v →
      countTypeOf args = .ok v) ∧
    (firstIdx "-c" ((splitOnSpaceL args.data).map String.mk) = none →
      ∀ j v, firstIdx "--count" ((splitOnSpaceL args.data).map String.mk) = some j →
        ((splitOnSpaceL args.data).map String.mk).get? (j + 1) = some v →
        countTypeOf args = .ok v) ∧
    (firstIdx "-c" ((splitOnSpaceL args.data).map String.mk) = none →
      firstIdx "--count" ((splitOnSpaceL args.data).map String.mk) = none →
      countTypeOf args = .ok "node") := by
  refine ⟨?_, ?_, ?_, ?_⟩
  · unfold headerPhase
    rw [hm]
    dsimp only
    rw [if_pos hc]
  · intro j v hj hv
    unfold countTypeOf
    dsimp only
    rw [hj]
    dsimp only
    rw [hv]
  · intro hn j v hj hv
    unfold countTypeOf
    dsimp only
    rw [hn]
    dsimp only
    rw [hj]
    dsimp only
    rw [hv]
  · intro hn hn2
    unfold countTypeOf
    dsimp only
    rw [hn]
    dsimp only
    rw [hn2]

/-- Witness for C6 (amended) at `# panacus histgrowth -c bp`. -/
theorem c6_counttype_witness :
    headerPhase "# panacus histgrowth -c bp\n" = .ok ("histgrowth", "-c bp") ∧
    countTypeOf "-c bp" = .ok "bp" := by
  have H := c6_counttype "# panacus histgrowth -c bp\n" "histgrowth" "-c bp"
    (by decide) (by decide)
  exact ⟨H.1, H.2.1 0 "bp" (by decide) (by decide)⟩

/-- C7: over the reordered columns, the renderer draws exactly one bar
series per column; with the overlay flag it draws exactly one dashed
fitted curve per column whose quorum equals 1 and none otherwise, and
every dashed curve belongs to a quorum-1 input column. -/
theorem c7_series_counts (cols : List (ℤ × ℤ)) (est : Bool) :
    ((plotOps (sortColumns cols) est).filter isBar).length = cols.length ∧
    ((plotOps (sortColumns cols) est).filter isDashed).length =
      (if est then (cols.filter (fun cq => cq.2 == 1)).length else 0) ∧
    (∀ c q, PlotOp.dashedCurve c q ∈ plotOps (sortColumns cols) est →
      est = true ∧ q = 1 ∧ (c, q) ∈ cols) := by
  have hperm : (sortColumns cols).Perm cols := List.perm_insertionSort _ _
  refine ⟨?_, ?_, ?_⟩
  · rw [plotOps_filter_isBar]
    exact hperm.length_eq
  · cases est
    · simp [plotOps_filter_isDashed_false]
    · rw [plotOps_filter_isDashed_true]
      simp only [if_true]
      exact (hperm.filter _).length_eq
  · intro c q hcq
    obtain ⟨he, hq, hm⟩ := mem_plotOps_dashed _ _ _ _ hcq
    exact ⟨he, hq, hperm.mem_iff.mp hm⟩

/-- C8: every input at or above `10 ^ 15` makes `humanize_number` raise an
out-of-range indexing error: the order `⌊log10 v⌋ / 3` is at least 5 while
the suffix list has exactly five entries. -/
theorem c8_index_error (i : ℤ) (p : ℕ) (h : (10 : ℤ) ^ 15 ≤ i) :
    humanize_number i p = .error .indexError ∧
    order i = Nat.log 10 i.toNat / 3 ∧ 5 ≤ order i ∧ humanR.length = 5 :=
  ⟨humanize_of_big i p h,
   order_eq_log i (lt_of_lt_of_le (by norm_num) h),
   five_le_order i h, rfl⟩

/-- Witness for C8 at the input `10 ^ 15`. -/
theorem c8_index_error_witness :
    humanize_number (10 ^ 15) 0 = .error .indexError ∧
    order (10 ^ 15) = Nat.log 10 ((10 : ℤ) ^ 15).toNat / 3 ∧
    5 ≤ order (10 ^ 15) ∧ humanR.length = 5 :=
  c8_index_error (10 ^ 15) 0 (by decide)

/-- C9 (counterexample): an input with two equal tick values need not make
the loop spin forever: with the equal values `10 ^ 15` the very first
render raises, so `calibrate_yticks_text` terminates by propagating the
indexing error. -/
theorem c9_counterexample :
    calibrate_yticks_text [10 ^ 15, 10 ^ 15] 1 = some (.error .indexError) ∧
    calibrate_yticks_text [10 ^ 15, 10 ^ 15] 1000000 = some (.error .indexError) := by
  constructor
  · decide
  · decide

/-- C9 (amended): whenever the input contains two equal tick values that
both render (non-negative and below `10 ^ 15`), and every value renders,
the two positions produce identical labels at every precision, so the
collision condition holds forever and the loop never exits, whatever
fuel it is given. -/
theorem c9_nontermination (ticks : List ℤ) (h : ∀ t ∈ ticks, 0 ≤ t ∧ t < 10 ^ 15)
    (hdup : ¬ticks.Nodup) (fuel : ℕ) : calibrate_yticks_text ticks fuel = none :=
  calibrateFuel_none_of_dup ticks h hdup fuel 0

/-- Witness for C9 (amended) at the ticks `[1000, 1000]`. -/
theorem c9_nontermination_witness : calibrate_yticks_text [1000, 1000] 7 = none :=
  c9_nontermination [1000, 1000] (by decide) (by decide) 7

/-- C10 (counterexample): an argument token list that ends with `-c` does
not necessarily crash the extraction: `list.index` finds the first
occurrence, so for `-c bp -c` the count-type is `bp` and no indexing
error is raised. -/
theorem c10_counterexample :
    ((splitOnSpaceL ("-c bp -c".data)).map String.mk).getLast? = some "-c" ∧
    countTypeOf "-c bp -c" = .ok "bp" := by
  constructor
  · decide
  · decide

/-- C10 (amended): when the *first* occurrence of `-c` is the final token
(or `-c` is absent and the first occurrence of `--count` is final), the
count-type extraction raises an out-of-range indexing error instead of
producing a label or a user-facing message. -/
theorem c10_index_error (args : String) (j : ℕ) :
    (firstIdx "-c" ((splitOnSpaceL args.data).map String.mk) = some j →
      ((splitOnSpaceL args.data).map String.mk).length ≤ j + 1 →
      countTypeOf args = .error .indexOutOfRange) ∧
    (firstIdx "-c" ((splitOnSpaceL args.data).map String.mk) = none →
      firstIdx "--count" ((splitOnSpaceL args.data).map String.mk) = some j →
      ((splitOnSpaceL args.data).map String.mk).length ≤ j + 1 →
      countTypeOf args = .error .indexOutOfRange) := by
  constructor
  · intro hj hlen
    unfold countTypeOf
    dsimp only
    rw [hj]
    dsimp only
    rw [List.get?_eq_none.mpr hlen]
  · intro hn hj hlen
    unfold countTypeOf
    dsimp only
    rw [hn]
    dsimp only
    rw [hj]
    dsimp only
    rw [List.get?_eq_none.mpr hlen]

/-- Witness for C10 (amended) at the argument string `-c`. -/
theorem c10_index_error_witness : countTypeOf "-c" = .error .indexOutOfRange :=
  (c10_index_error "-c" 0).1 (by decide) (by decide)

end VG
